import Mathlib

/-!
Shallow embedding of the structural-conformance engine of gofindimpl.

The engine itself ships outside the test tree, so every definition below is
modelled from the specification, constrained by the behaviour the repository
tests pin down (finder_test.go, integration_test.go, fixtures_test.go and the
fixture packages).
-/

namespace GoFindImpl

/-- Modelled from the spec: the kind of a declared named type after
resolution, as distinguished by the conformance matcher — struct-like record,
interface, alias, or anything else. -/
inductive TypeKind where
  | structType
  | interfaceType
  | aliasType
  | otherType
deriving DecidableEq, Repr

/-- Modelled from the spec: one package-level declared symbol in a resolved
scope.  A type declaration carries its kind and its value-receiver and
pointer-receiver method-name lists; variables, constants and functions carry
only their name. -/
inductive ScopeObj where
  | typeDecl (name : String) (kind : TypeKind)
      (valueMethods ptrMethods : List String)
  | varDecl (name : String)
  | constDecl (name : String)
  | funcDecl (name : String)
deriving DecidableEq, Repr

/-- Modelled from the spec: the effective method-name set of a candidate type
is the merge of its value-receiver and pointer-receiver method names. -/
def methodSet (valueMethods ptrMethods : List String) : List String :=
  valueMethods ++ ptrMethods

/-- Modelled from the spec: typeImplementsInterface.  Conformance is
name-only: every required method name must occur in the merged
method set; an empty required list is unsatisfiable (the tests pin this down:
typeImplementsInterface returns false for empty interfaceMethods). -/
def typeImplementsInterface (interfaceMethods : List String)
    (valueMethods ptrMethods : List String) : Bool :=
  if interfaceMethods.isEmpty then false
  else interfaceMethods.all
    (fun m => (methodSet valueMethods ptrMethods).contains m)

/-- The final output record, from the tests: Implementation with fields
Package, Struct, PackagePath. -/
structure Implementation where
  package : String
  struct : String
  packagePath : String
deriving DecidableEq, Repr

/-- Modelled from the spec: the fully qualified package path is the module
path concatenated with the directory path relative to the project root
(TestCreateImplementation: modulePath github.com/test/repo and directory
./pkg/testpkg give github.com/test/repo/pkg/testpkg). -/
def fullPackagePath (modulePath dir : String) : String :=
  match dir.toList with
  | '.' :: rest => modulePath ++ String.mk rest
  | _ => modulePath ++ "/" ++ dir

/-- Modelled from the spec: createImplementation builds one output record
from the visited directory, the package name and the struct name. -/
def createImplementation (dir modulePath pkgName structName : String) :
    Implementation :=
  { package := pkgName
    struct := structName
    packagePath := fullPackagePath modulePath dir }

/-- Modelled from the spec: processTypeInScope.  Non-type declarations are
skipped; a type declaration is a candidate only when its kind is struct-like;
a candidate is emitted exactly when typeImplementsInterface accepts it. -/
def processTypeInScope (interfaceMethods : List String)
    (dir modulePath pkgName : String) (obj : ScopeObj) : List Implementation :=
  match obj with
  | .typeDecl name kind valueMethods ptrMethods =>
      if kind = TypeKind.structType &&
          typeImplementsInterface interfaceMethods valueMethods ptrMethods then
        [createImplementation dir modulePath pkgName name]
      else []
  | .varDecl _ => []
  | .constDecl _ => []
  | .funcDecl _ => []

/-- Modelled from the spec: the conformance matcher enumerates every declared
name of a resolved scope in declaration order and collects the emitted
records. -/
def analyzeScope (interfaceMethods : List String)
    (dir modulePath pkgName : String) (scope : List ScopeObj) :
    List Implementation :=
  scope.flatMap (processTypeInScope interfaceMethods dir modulePath pkgName)

/-- Modelled from the spec: a directory of the search tree as the walker sees
it — its path, the package name resolved there, whether a directory-local
I/O or resolution error occurred (broken), the resolved scope of its package,
and its subdirectories in deterministic visit order. -/
inductive DirTree where
  | node (path pkgName : String) (broken : Bool)
      (scope : List ScopeObj) (subdirs : List DirTree)
deriving Repr

/-- Modelled from the spec: analyzeDirectory — the contribution of one directory.
A directory whose loading or resolution failed contributes zero candidates;
otherwise the conformance matcher runs over its resolved scope. -/
def analyzeDirectory (interfaceMethods : List String) (modulePath : String)
    (path pkgName : String) (broken : Bool) (scope : List ScopeObj) :
    List Implementation :=
  if broken then []
  else analyzeScope interfaceMethods path modulePath pkgName scope

mutual

/-- Modelled from the spec: the recursive walk — a directory is analyzed,
then its subdirectories are visited in order; per-directory errors never
abort the walk. -/
def walkTree (interfaceMethods : List String) (modulePath : String) :
    DirTree → List Implementation
  | .node path pkgName broken scope subdirs =>
      analyzeDirectory interfaceMethods modulePath path pkgName broken scope
        ++ walkForest interfaceMethods modulePath subdirs

/-- Modelled from the spec: visiting a sequence of sibling directories. -/
def walkForest (interfaceMethods : List String) (modulePath : String) :
    List DirTree → List Implementation
  | [] => []
  | t :: ts => walkTree interfaceMethods modulePath t
      ++ walkForest interfaceMethods modulePath ts

end

/-- Modelled from the spec: the only fatal error of the walk. -/
inductive ScanError where
  | rootDirectoryNotFound
deriving DecidableEq, Repr

/-- Modelled from the spec: scanDirectory fails only when the search root
itself does not exist (modelled as the absence of a tree); otherwise it
returns the aggregate of the walk. -/
def scanDirectory (interfaceMethods : List String) (modulePath : String)
    (root : Option DirTree) : Except ScanError (List Implementation) :=
  match root with
  | none => .error .rootDirectoryNotFound
  | some t => .ok (walkTree interfaceMethods modulePath t)

/-- ASCII whitespace, as trimmed from the two halves of an interface spec
and from the module line remainder. -/
def isSpaceChar (c : Char) : Bool :=
  c = ' ' || c = '\t' || c = '\n' || c = '\r'

/-- Drop surrounding whitespace from a character list. -/
def trimChars (l : List Char) : List Char :=
  ((l.dropWhile isSpaceChar).reverse.dropWhile isSpaceChar).reverse

/-- Modelled from the spec: splitting a string on the colon separator, as the
CLI layer does to cut an interface spec into file and name halves. -/
def splitOnColon : List Char → List (List Char)
  | [] => [[]]
  | c :: cs =>
      match splitOnColon cs with
      | [] => [[]]
      | h :: t => if c = ':' then [] :: h :: t else (c :: h) :: t

/-- Joining chunks back with colons, the inverse of splitting. -/
def joinColon : List (List Char) → List Char
  | [] => []
  | [x] => x
  | x :: xs => x ++ ':' :: joinColon xs

/-- Modelled from the spec: parseInterfaceSpec.  The spec string is split on
the colon; unless this yields exactly two chunks whose trimmed forms are both
non-empty, the parse fails with empty file and name outputs (third component
false); otherwise it returns the trimmed file path and interface name. -/
def parseInterfaceSpec (spec : List Char) : List Char × List Char × Bool :=
  match splitOnColon spec with
  | [a, b] =>
      if (trimChars a).isEmpty || (trimChars b).isEmpty then ([], [], false)
      else (trimChars a, trimChars b, true)
  | _ => ([], [], false)

/-- Whether a pattern occurs at the beginning of a character list. -/
def startsWithChars : List Char → List Char → Bool
  | [], _ => true
  | _ :: _, [] => false
  | p :: ps, c :: cs => p = c && startsWithChars ps cs

/-- Whether a pattern occurs at the end of a character list. -/
def endsWithChars (pat l : List Char) : Bool :=
  startsWithChars pat.reverse l.reverse

/-- A manifest line that begins with the module-declaration keyword. -/
def isModuleLine (l : List Char) : Bool :=
  startsWithChars "module".toList l

/-- Modelled from the spec: the error of the module path loader. -/
inductive ModuleError where
  | noModuleDeclaration
deriving DecidableEq, Repr

/-- Modelled from the spec: loadModulePath.  The manifest is the list of its
lines; the root import path is the remainder of the first line beginning with
the module-declaration keyword, trimmed of surrounding whitespace; absence of
such a line is an error. -/
def loadModulePath (manifest : List (List Char)) :
    Except ModuleError (List Char) :=
  match manifest.find? isModuleLine with
  | none => .error .noModuleDeclaration
  | some l => .ok (trimChars (l.drop 6))

/-- Modelled from the spec: a top-level declaration of one parsed source
file, as the interface extractor sees it — a named type declaration of some
kind (with its method-name list when it is an interface), or anything else. -/
inductive AstDecl where
  | typeDecl (name : String) (kind : TypeKind) (methods : List String)
  | otherDecl
deriving DecidableEq, Repr

/-- Modelled from the spec: the syntactic outcome of reading one source file
— unparseable, or a parsed list of top-level declarations. -/
inductive GoFileAst where
  | unparseable
  | parsed (decls : List AstDecl)
deriving DecidableEq, Repr

/-- Modelled from the spec: the errors of the interface extractor. -/
inductive IfaceError where
  | parseFailure
  | notFound
  | wrongKind
deriving DecidableEq, Repr

/-- The first top-level type declaration with the given name. -/
def lookupTypeDecl (name : String) : List AstDecl → Option (TypeKind × List String)
  | [] => none
  | AstDecl.typeDecl n k ms :: rest =>
      if n = name then some (k, ms) else lookupTypeDecl name rest
  | AstDecl.otherDecl :: rest => lookupTypeDecl name rest

/-- Modelled from the spec: parseInterface.  A file that fails to parse is a
parse failure; a file without a type declaration of the requested name is a
not-found failure; a declaration of the wrong kind is a wrong-kind failure;
a well-formed interface declaration yields its method names in source
order. -/
def parseInterface (ast : GoFileAst) (name : String) :
    Except IfaceError (List String) :=
  match ast with
  | .unparseable => .error .parseFailure
  | .parsed decls =>
      match lookupTypeDecl name decls with
      | none => .error .notFound
      | some (k, ms) =>
          if k = TypeKind.interfaceType then .ok ms else .error .wrongKind

/-- Modelled from the spec: one file of a visited directory — its name and
the outcome of parsing it. -/
structure SrcFile where
  name : List Char
  ast : GoFileAst
deriving DecidableEq, Repr

/-- A file with the source extension. -/
def isGoFile (n : List Char) : Bool := endsWithChars ".go".toList n

/-- A file matching the test-file naming convention. -/
def isTestFile (n : List Char) : Bool := endsWithChars "_test.go".toList n

/-- Modelled from the spec: an I/O-level error of the package loader. -/
inductive DirError where
  | unreadable
deriving DecidableEq, Repr

/-- The parsed declarations of one file, none if the file fails to parse. -/
def parseSourceFile (f : SrcFile) : Option (List AstDecl) :=
  match f.ast with
  | .unparseable => none
  | .parsed ds => some ds

/-- Modelled from the spec: parsePackageFiles.  Over a readable directory it
keeps, in order, the successfully parsed files with the source extension that
do not match the test-file convention; a file that fails to parse is skipped,
never fatal.  Only directory-level unreadability is an error. -/
def parsePackageFiles (readable : Bool) (files : List SrcFile) :
    Except DirError (List (List AstDecl)) :=
  if readable then
    .ok (files.filterMap (fun f =>
      if isGoFile f.name && !isTestFile f.name then parseSourceFile f
      else none))
  else .error .unreadable

/-- A JSON value, as far as the output serialization needs one. -/
inductive JsonVal where
  | jstr (s : String)
  | jarr (xs : List JsonVal)
  | jobj (fields : List (String × JsonVal))

/-- Modelled from the spec: serializing one Implementation record to the flat
three-string-field JSON object of the persisted contract. -/
def implToJson (i : Implementation) : JsonVal :=
  .jobj [("package", .jstr i.package), ("struct", .jstr i.struct),
    ("packagePath", .jstr i.packagePath)]

/-- Field lookup in a JSON object. -/
def jsonLookup (key : String) : List (String × JsonVal) → Option JsonVal
  | [] => none
  | (k, v) :: rest => if k = key then some v else jsonLookup key rest

/-- The string carried by a JSON value, when it is a string. -/
def asJstr : Option JsonVal → Option String
  | some (.jstr s) => some s
  | _ => none

/-- Modelled from the spec: parsing one Implementation record back from its
JSON object. -/
def implFromJson (j : JsonVal) : Option Implementation :=
  match j with
  | .jobj fields =>
      match asJstr (jsonLookup "package" fields),
          asJstr (jsonLookup "struct" fields),
          asJstr (jsonLookup "packagePath" fields) with
      | some p, some s, some pp => some ⟨p, s, pp⟩
      | _, _, _ => none
  | _ => none

/-- Modelled from the spec: the result list serializes to a JSON array. -/
def resultsToJson (rs : List Implementation) : JsonVal :=
  .jarr (rs.map implToJson)

/-- Modelled from the spec: parsing the serialized result list back. -/
def resultsFromJson (j : JsonVal) : Option (List Implementation) :=
  match j with
  | .jarr xs => xs.mapM implFromJson
  | _ => none

-- Conformance is membership of every required name in the merged method set.
theorem typeImplementsInterface_eq_true_iff (req vm pm : List String)
    (h : req ≠ []) :
    typeImplementsInterface req vm pm = true ↔
      ∀ m ∈ req, m ∈ vm ++ pm := by
  unfold typeImplementsInterface methodSet
  rw [if_neg (by simpa [List.isEmpty_iff] using h)]
  simp [List.all_eq_true, List.elem_iff]

theorem typeImplementsInterface_empty (vm pm : List String) :
    typeImplementsInterface [] vm pm = false := by
  simp [typeImplementsInterface]

/-- Membership characterisation of the matcher output: every emitted record
arises from a struct-like type declaration of the scope that passes the
conformance check, and conversely. -/
theorem mem_analyzeScope (req : List String) (dir modulePath pkgName : String)
    (scope : List ScopeObj) (impl : Implementation) :
    impl ∈ analyzeScope req dir modulePath pkgName scope ↔
      ∃ name vm pm,
        ScopeObj.typeDecl name TypeKind.structType vm pm ∈ scope ∧
        typeImplementsInterface req vm pm = true ∧
        impl = createImplementation dir modulePath pkgName name := by
  unfold analyzeScope
  rw [List.mem_flatMap]
  constructor
  · rintro ⟨obj, hobj, himpl⟩
    cases obj with
    | typeDecl name kind vm pm =>
        simp only [processTypeInScope] at himpl
        split at himpl
        · next hc =>
            rw [Bool.and_eq_true] at hc
            obtain ⟨hk, hti⟩ := hc
            have hk : kind = TypeKind.structType := of_decide_eq_true hk
            subst hk
            exact ⟨name, vm, pm, hobj, hti, by simpa using himpl⟩
        · next hc => simp at himpl
    | varDecl n => simp [processTypeInScope] at himpl
    | constDecl n => simp [processTypeInScope] at himpl
    | funcDecl n => simp [processTypeInScope] at himpl
  · rintro ⟨name, vm, pm, hmem, hti, himpl⟩
    refine ⟨ScopeObj.typeDecl name TypeKind.structType vm pm, hmem, ?_⟩
    simp [processTypeInScope, hti, himpl]

theorem analyzeScope_empty_req (dir modulePath pkgName : String)
    (scope : List ScopeObj) :
    analyzeScope [] dir modulePath pkgName scope = [] := by
  induction scope with
  | nil => rfl
  | cons obj rest ih =>
      cases obj <;>
        simp_all [analyzeScope, processTypeInScope, typeImplementsInterface]

mutual

theorem walkTree_empty_req (modulePath : String) (t : DirTree) :
    walkTree [] modulePath t = [] := by
  cases t with
  | node path pkgName broken scope subdirs =>
      rw [walkTree, walkForest_empty_req modulePath subdirs]
      cases broken <;>
        simp [analyzeDirectory, analyzeScope_empty_req]

theorem walkForest_empty_req (modulePath : String) (ts : List DirTree) :
    walkForest [] modulePath ts = [] := by
  cases ts with
  | nil => rw [walkForest]
  | cons t rest =>
      rw [walkForest, walkTree_empty_req modulePath t,
        walkForest_empty_req modulePath rest]
      rfl

end

theorem splitOnColon_ne_nil (s : List Char) : splitOnColon s ≠ [] := by
  cases s with
  | nil => simp [splitOnColon]
  | cons c cs =>
      simp only [splitOnColon]
      cases h : splitOnColon cs with
      | nil => simp
      | cons hd tl => by_cases hc : c = ':' <;> simp [hc]

theorem mem_splitOnColon_no_colon (s : List Char) :
    ∀ x ∈ splitOnColon s, ':' ∉ x := by
  induction s with
  | nil => simp [splitOnColon]
  | cons c cs ih =>
      obtain ⟨hd, tl, hsp⟩ : ∃ hd tl, splitOnColon cs = hd :: tl := by
        cases h : splitOnColon cs with
        | nil => exact absurd h (splitOnColon_ne_nil cs)
        | cons a b => exact ⟨a, b, rfl⟩
      rw [hsp] at ih
      by_cases hc : c = ':'
      · subst hc
        rw [show splitOnColon (':' :: cs) = [] :: hd :: tl by
          simp [splitOnColon, hsp]]
        intro x hx
        rw [List.mem_cons] at hx
        rcases hx with hx | hx
        · simp [hx]
        · exact ih x hx
      · rw [show splitOnColon (c :: cs) = (c :: hd) :: tl by
          simp [splitOnColon, hsp, hc]]
        intro x hx
        rw [List.mem_cons] at hx
        rcases hx with hx | hx
        · subst hx
          intro hmem
          rw [List.mem_cons] at hmem
          rcases hmem with hmem | hmem
          · exact hc hmem.symm
          · exact ih hd (List.mem_cons_self hd tl) hmem
        · exact ih x (List.mem_cons_of_mem hd hx)

theorem joinColon_splitOnColon (s : List Char) :
    joinColon (splitOnColon s) = s := by
  induction s with
  | nil => rfl
  | cons c cs ih =>
      obtain ⟨hd, tl, hsp⟩ : ∃ hd tl, splitOnColon cs = hd :: tl := by
        cases h : splitOnColon cs with
        | nil => exact absurd h (splitOnColon_ne_nil cs)
        | cons a b => exact ⟨a, b, rfl⟩
      rw [hsp] at ih
      by_cases hc : c = ':'
      · subst hc
        simp only [splitOnColon, hsp, if_pos rfl]
        cases tl with
        | nil => simpa [joinColon] using ih
        | cons d ds => simpa [joinColon] using ih
      · simp only [splitOnColon, hsp, if_neg hc]
        cases tl with
        | nil => simpa [joinColon] using ih
        | cons d ds =>
            simp only [joinColon] at ih ⊢
            rw [List.cons_append, ih]

theorem splitOnColon_append (a s : List Char) (ha : ':' ∉ a) :
    splitOnColon (a ++ ':' :: s) = a :: splitOnColon s := by
  induction a with
  | nil =>
      obtain ⟨hd, tl, hsp⟩ : ∃ hd tl, splitOnColon s = hd :: tl := by
        cases h : splitOnColon s with
        | nil => exact absurd h (splitOnColon_ne_nil s)
        | cons x y => exact ⟨x, y, rfl⟩
      simp [splitOnColon, hsp]
  | cons c a' ih =>
      have hc : c ≠ ':' := fun h => ha (h ▸ List.mem_cons_self c a')
      have ha' : ':' ∉ a' := fun h => ha (List.mem_cons_of_mem c h)
      have ihh := ih ha'
      simp only [List.cons_append, splitOnColon, List.append_eq]
      rw [ihh]
      show (if c = ':' then [] :: a' :: splitOnColon s
        else (c :: a') :: splitOnColon s) = (c :: a') :: splitOnColon s
      rw [if_neg hc]

theorem splitOnColon_eq_pair (s a b : List Char) :
    splitOnColon s = [a, b] ↔
      s = a ++ ':' :: b ∧ ':' ∉ a ∧ ':' ∉ b := by
  constructor
  · intro h
    have hs : s = joinColon [a, b] := by
      rw [← h, joinColon_splitOnColon]
    have hja : ':' ∉ a := by
      have := mem_splitOnColon_no_colon s a
      rw [h] at this
      exact this (by simp)
    have hjb : ':' ∉ b := by
      have := mem_splitOnColon_no_colon s b
      rw [h] at this
      exact this (by simp)
    refine ⟨?_, hja, hjb⟩
    simpa [joinColon] using hs
  · rintro ⟨rfl, ha, hb⟩
    rw [splitOnColon_append a b ha]
    have hb' : splitOnColon b = [b] := by
      have hj := joinColon_splitOnColon b
      cases hsp : splitOnColon b with
      | nil => exact absurd hsp (splitOnColon_ne_nil b)
      | cons hd tl =>
          cases tl with
          | nil =>
              rw [hsp] at hj
              simp only [joinColon] at hj
              rw [hj]
          | cons d ds =>
              exfalso
              rw [hsp] at hj
              simp only [joinColon] at hj
              have : ':' ∈ b := by
                rw [← hj]
                exact List.mem_append_right hd (List.mem_cons_self ':' _)
              exact hb this
    rw [hb']

theorem implFromJson_implToJson (i : Implementation) :
    implFromJson (implToJson i) = some i := by
  cases i
  rfl

theorem lookupTypeDecl_eq_none (name : String) (decls : List AstDecl) :
    lookupTypeDecl name decls = none ↔
      ∀ k ms, AstDecl.typeDecl name k ms ∉ decls := by
  induction decls with
  | nil => simp [lookupTypeDecl]
  | cons d rest ih =>
      cases d with
      | typeDecl n k ms =>
          by_cases hn : n = name
          · subst hn
            simp only [lookupTypeDecl, if_pos rfl]
            constructor
            · intro h
              exact absurd h (by simp)
            · intro h
              exact absurd (List.mem_cons_self _ rest) (h k ms)
          · simp only [lookupTypeDecl, if_neg hn, ih, List.mem_cons]
            constructor
            · intro h k2 ms2 hmem
              rcases hmem with hmem | hmem
              · exact hn (by injection hmem.symm)
              · exact h k2 ms2 hmem
            · intro h k2 ms2 hmem
              exact h k2 ms2 (Or.inr hmem)
      | otherDecl =>
          simp only [lookupTypeDecl, ih, List.mem_cons]
          constructor
          · intro h k2 ms2 hmem
            rcases hmem with hmem | hmem
            · exact absurd hmem.symm (by simp)
            · exact h k2 ms2 hmem
          · intro h k2 ms2 hmem
            exact h k2 ms2 (Or.inr hmem)

theorem find?_append_cons_of_forall_neg {α : Type} (p : α → Bool)
    (pre : List α) (x : α) (post : List α)
    (hpre : ∀ a ∈ pre, p a = false) (hx : p x = true) :
    (pre ++ x :: post).find? p = some x := by
  induction pre with
  | nil => simp [List.find?_cons_of_pos, hx]
  | cons a as ih =>
      rw [List.cons_append, List.find?_cons_of_neg]
      · exact ih (fun b hb => hpre b (List.mem_cons_of_mem a hb))
      · simp [hpre a (List.mem_cons_self a as)]

/-- C1: for every candidate and every non-empty required-method list, the
conformance check returns true iff every required name occurs in the
merged value- and pointer-receiver method-name set; only names
enter the comparison. -/
theorem claim1_conformance_iff_names (req vm pm : List String)
    (h : req ≠ []) :
    typeImplementsInterface req vm pm = true ↔
      ∀ m ∈ req, m ∈ methodSet vm pm :=
  typeImplementsInterface_eq_true_iff req vm pm h

theorem claim1_witness :
    (["Start", "Stop"] ≠ ([] : List String)) ∧
    (typeImplementsInterface ["Start", "Stop"] ["Start"] ["Stop"] = true ↔
      ∀ m ∈ ["Start", "Stop"], m ∈ methodSet ["Start"] ["Stop"]) :=
  ⟨by decide,
    claim1_conformance_iff_names ["Start", "Stop"] ["Start"] ["Stop"]
      (by decide)⟩

/-- C2: an empty required-method list never holds for any candidate, and a
run with an empty required list produces an empty result set on every input
tree. -/
theorem claim2_empty_required_unsatisfiable :
    (∀ vm pm : List String, typeImplementsInterface [] vm pm = false) ∧
    (∀ (modulePath : String) (t : DirTree),
      scanDirectory [] modulePath (some t) = Except.ok []) := by
  refine ⟨typeImplementsInterface_empty, ?_⟩
  intro mp t
  simp [scanDirectory, walkTree_empty_req]

/-- C3 as stated is false: a struct whose method-name set is exactly the
required list (a superset but not a strict one) is emitted into the
results. -/
theorem claim3_counterexample :
    createImplementation "./p" "m" "pkg" "T" ∈
      analyzeScope ["Start", "Stop"] "./p" "m" "pkg"
        [ScopeObj.typeDecl "T" TypeKind.structType [] ["Start", "Stop"]] ∧
    ¬ ∃ m ∈ methodSet [] ["Start", "Stop"], m ∉ ["Start", "Stop"] := by
  decide

/-- C3 (amended): every emitted Implementation names a struct-like
declaration of the scope whose method set contains every required name — a
superset by name, though not necessarily a strict one. -/
theorem claim3_emitted_superset (req : List String)
    (dir modulePath pkgName : String) (scope : List ScopeObj)
    (impl : Implementation)
    (h : impl ∈ analyzeScope req dir modulePath pkgName scope) :
    ∃ name vm pm,
      ScopeObj.typeDecl name TypeKind.structType vm pm ∈ scope ∧
      impl.struct = name ∧
      ∀ m ∈ req, m ∈ methodSet vm pm := by
  obtain ⟨name, vm, pm, hmem, hti, himpl⟩ :=
    (mem_analyzeScope req dir modulePath pkgName scope impl).mp h
  refine ⟨name, vm, pm, hmem, by rw [himpl]; rfl, ?_⟩
  rcases req with _ | ⟨r, rs⟩
  · intro m hm
    exact absurd hm (List.not_mem_nil m)
  · exact fun m hm =>
      (typeImplementsInterface_eq_true_iff (r :: rs) vm pm (by simp)).mp
        hti m hm

theorem claim3_witness :
    ∃ name vm pm,
      ScopeObj.typeDecl name TypeKind.structType vm pm ∈
        [ScopeObj.typeDecl "W" TypeKind.structType ["Start"]
          ["Stop", "Extra"]] ∧
      (createImplementation "./p2" "m2" "pkg2" "W").struct = name ∧
      ∀ m ∈ ["Start", "Stop"], m ∈ methodSet vm pm :=
  claim3_emitted_superset ["Start", "Stop"] "./p2" "m2" "pkg2"
    [ScopeObj.typeDecl "W" TypeKind.structType ["Start"] ["Stop", "Extra"]]
    (createImplementation "./p2" "m2" "pkg2" "W") (by decide)

/-- C4: only struct-like type declarations can produce a record — every
emitted Implementation traces back to a struct-like declaration of the
scope, and interface or alias type declarations as well as variables,
constants and functions contribute nothing, whatever their method sets. -/
theorem claim4_struct_only :
    (∀ (req : List String) (dir modulePath pkgName : String)
        (scope : List ScopeObj) (impl : Implementation),
      impl ∈ analyzeScope req dir modulePath pkgName scope →
        ∃ name vm pm,
          ScopeObj.typeDecl name TypeKind.structType vm pm ∈ scope ∧
          impl = createImplementation dir modulePath pkgName name) ∧
    (∀ (req : List String) (dir modulePath pkgName name : String)
        (k : TypeKind) (vm pm : List String), k ≠ TypeKind.structType →
      processTypeInScope req dir modulePath pkgName
        (ScopeObj.typeDecl name k vm pm) = []) ∧
    (∀ (req : List String) (dir modulePath pkgName n : String),
      processTypeInScope req dir modulePath pkgName (ScopeObj.varDecl n) = [] ∧
      processTypeInScope req dir modulePath pkgName
        (ScopeObj.constDecl n) = [] ∧
      processTypeInScope req dir modulePath pkgName
        (ScopeObj.funcDecl n) = []) := by
  refine ⟨?_, ?_, ?_⟩
  · intro req dir mp pkg scope impl h
    obtain ⟨name, vm, pm, hmem, _, himpl⟩ :=
      (mem_analyzeScope req dir mp pkg scope impl).mp h
    exact ⟨name, vm, pm, hmem, himpl⟩
  · intro req dir mp pkg name k vm pm hk
    simp [processTypeInScope, hk]
  · intro req dir mp pkg n
    exact ⟨rfl, rfl, rfl⟩

theorem claim4_witness :
    ∃ name vm pm,
      ScopeObj.typeDecl name TypeKind.structType vm pm ∈
        [ScopeObj.varDecl "v",
          ScopeObj.typeDecl "S" TypeKind.structType ["M"] []] ∧
      createImplementation "d" "m" "p" "S" =
        createImplementation "d" "m" "p" name :=
  claim4_struct_only.1 ["M"] "d" "m" "p"
    [ScopeObj.varDecl "v", ScopeObj.typeDecl "S" TypeKind.structType ["M"] []]
    (createImplementation "d" "m" "p" "S") (by decide)

/-- C5: the interface extractor fails with a parse error exactly on an
unparseable file, with not-found exactly when no type declaration of the
requested name exists, with wrong-kind when the named declaration is not an
interface, and succeeds with the method list on a well-formed interface
declaration; lookup takes the first declaration of the requested name. -/
theorem claim5_parseInterface_cases :
    (∀ name : String,
      parseInterface GoFileAst.unparseable name =
        Except.error IfaceError.parseFailure) ∧
    (∀ (decls : List AstDecl) (name : String),
      parseInterface (GoFileAst.parsed decls) name =
          Except.error IfaceError.notFound ↔
        ∀ k ms, AstDecl.typeDecl name k ms ∉ decls) ∧
    (∀ (decls : List AstDecl) (name : String) (k : TypeKind)
        (ms : List String),
      lookupTypeDecl name decls = some (k, ms) →
      k ≠ TypeKind.interfaceType →
      parseInterface (GoFileAst.parsed decls) name =
        Except.error IfaceError.wrongKind) ∧
    (∀ (decls : List AstDecl) (name : String) (ms : List String),
      lookupTypeDecl name decls = some (TypeKind.interfaceType, ms) →
      parseInterface (GoFileAst.parsed decls) name = Except.ok ms) ∧
    (∀ (pre : List AstDecl) (name : String) (k : TypeKind) (ms : List String)
        (post : List AstDecl),
      (∀ k2 ms2, AstDecl.typeDecl name k2 ms2 ∉ pre) →
      lookupTypeDecl name (pre ++ AstDecl.typeDecl name k ms :: post) =
        some (k, ms)) := by
  refine ⟨fun name => rfl, ?_, ?_, ?_, ?_⟩
  · intro decls name
    cases h : lookupTypeDecl name decls with
    | none =>
        have hall := (lookupTypeDecl_eq_none name decls).mp h
        simp only [parseInterface, h]
        exact iff_of_true trivial hall
    | some km =>
        obtain ⟨k, ms⟩ := km
        have hnot : ¬ ∀ k2 ms2, AstDecl.typeDecl name k2 ms2 ∉ decls := by
          intro hall
          rw [← lookupTypeDecl_eq_none name decls] at hall
          rw [h] at hall
          cases hall
        simp only [parseInterface, h]
        refine iff_of_false ?_ hnot
        by_cases hk : k = TypeKind.interfaceType
        · simp [hk]
        · simp [hk]
  · intro decls name k ms h hk
    simp [parseInterface, h, hk]
  · intro decls name ms h
    simp [parseInterface, h]
  · intro pre name k ms post
    induction pre with
    | nil =>
        intro _
        simp [lookupTypeDecl]
    | cons d ds ih =>
        intro hpre
        have hds : ∀ k2 ms2, AstDecl.typeDecl name k2 ms2 ∉ ds :=
          fun k2 ms2 hmem => hpre k2 ms2 (List.mem_cons_of_mem d hmem)
        cases d with
        | typeDecl n k2 ms2 =>
            have hn : n ≠ name := by
              intro hn
              subst hn
              exact hpre k2 ms2 (List.mem_cons_self _ ds)
            rw [List.cons_append]
            simp only [lookupTypeDecl, if_neg hn]
            exact ih hds
        | otherDecl =>
            rw [List.cons_append]
            simp only [lookupTypeDecl]
            exact ih hds

theorem claim5_witness :
    parseInterface (GoFileAst.parsed
        [AstDecl.otherDecl,
          AstDecl.typeDecl "App" TypeKind.interfaceType
            ["Start", "Stop", "GetName"]]) "App" =
      Except.ok ["Start", "Stop", "GetName"] :=
  claim5_parseInterface_cases.2.2.2.1
    [AstDecl.otherDecl,
      AstDecl.typeDecl "App" TypeKind.interfaceType
        ["Start", "Stop", "GetName"]]
    "App" ["Start", "Stop", "GetName"] (by decide)

/-- C6: the walk is fatal exactly when the root is absent; a root that
exists always yields a result list, and a directory-local error makes that
directory contribute nothing while its subdirectories are still visited. -/
theorem claim6_fatal_only_missing_root :
    (∀ (req : List String) (modulePath : String),
      scanDirectory req modulePath none =
        Except.error ScanError.rootDirectoryNotFound) ∧
    (∀ (req : List String) (modulePath : String) (t : DirTree),
      ∃ rs, scanDirectory req modulePath (some t) = Except.ok rs) ∧
    (∀ (req : List String) (modulePath path pkgName : String)
        (scope : List ScopeObj) (subdirs : List DirTree),
      walkTree req modulePath (DirTree.node path pkgName true scope subdirs) =
        walkForest req modulePath subdirs) := by
  refine ⟨fun req mp => rfl, fun req mp t => ⟨_, rfl⟩, ?_⟩
  intro req mp path pkg scope subs
  rw [walkTree]
  simp [analyzeDirectory]

/-- C7: over a readable directory the package loader never errors; its
output holds exactly the parsed declaration lists of the non-test files with
the source extension that parse successfully, and is empty when every file
is a test file, lacks the extension, or fails to parse. -/
theorem claim7_parsePackageFiles (files : List SrcFile) :
    ∃ l, parsePackageFiles true files = Except.ok l ∧
      (∀ d, d ∈ l ↔ ∃ f ∈ files, isGoFile f.name = true ∧
          isTestFile f.name = false ∧ f.ast = GoFileAst.parsed d) ∧
      ((∀ f ∈ files, isGoFile f.name = false ∨ isTestFile f.name = true ∨
          f.ast = GoFileAst.unparseable) → l = []) := by
  refine ⟨_, rfl, ?_, ?_⟩
  · intro d
    rw [List.mem_filterMap]
    constructor
    · rintro ⟨f, hf, hfd⟩
      refine ⟨f, hf, ?_⟩
      by_cases hcond : (isGoFile f.name && !isTestFile f.name) = true
      · rw [if_pos hcond] at hfd
        obtain ⟨hg, ht⟩ : isGoFile f.name = true ∧ isTestFile f.name = false :=
          by simpa using hcond
        refine ⟨hg, ht, ?_⟩
        have hfd' : (match f.ast with
            | GoFileAst.unparseable => none
            | GoFileAst.parsed ds => some ds) = some d := hfd
        cases hast : f.ast with
        | unparseable =>
            rw [hast] at hfd'
            cases hfd'
        | parsed ds =>
            rw [hast] at hfd'
            simp only [Option.some.injEq] at hfd'
            rw [hfd']
      · rw [if_neg hcond] at hfd
        cases hfd
    · rintro ⟨f, hf, hg, ht, hast⟩
      refine ⟨f, hf, ?_⟩
      rw [if_pos (by simp [hg, ht])]
      show (match f.ast with
          | GoFileAst.unparseable => none
          | GoFileAst.parsed ds => some ds) = some d
      rw [hast]
  · intro h
    rw [List.filterMap_eq_nil_iff]
    intro f hf
    rcases h f hf with hg | ht | hast
    · rw [if_neg]
      simp [hg]
    · rw [if_neg]
      simp [ht]
    · cases hcond : (isGoFile f.name && !isTestFile f.name) <;>
        simp [hcond, parseSourceFile, hast]

theorem claim7_witness :
    parsePackageFiles true
      [⟨"main_test.go".toList, GoFileAst.parsed []⟩,
        ⟨"bad.go".toList, GoFileAst.unparseable⟩,
        ⟨"notes.txt".toList, GoFileAst.parsed [AstDecl.otherDecl]⟩] =
      Except.ok [] := by
  obtain ⟨l, hok, _, hnil⟩ := claim7_parsePackageFiles
    [⟨"main_test.go".toList, GoFileAst.parsed []⟩,
      ⟨"bad.go".toList, GoFileAst.unparseable⟩,
      ⟨"notes.txt".toList, GoFileAst.parsed [AstDecl.otherDecl]⟩]
  rw [hnil (by decide)] at hok
  exact hok

/-- C8: the module path is the remainder of the first manifest line that
begins with the module keyword, trimmed of surrounding whitespace (so the
padded form yields github.com/test/repo), and the loader errors exactly when
no such line exists. -/
theorem claim8_loadModulePath :
    (∀ manifest : List (List Char),
      loadModulePath manifest =
          Except.error ModuleError.noModuleDeclaration ↔
        ∀ l ∈ manifest, isModuleLine l = false) ∧
    (∀ (pre : List (List Char)) (l : List Char) (post : List (List Char)),
      (∀ p ∈ pre, isModuleLine p = false) → isModuleLine l = true →
      loadModulePath (pre ++ l :: post) =
        Except.ok (trimChars (l.drop 6))) ∧
    loadModulePath ["module   github.com/test/repo   ".toList] =
      Except.ok "github.com/test/repo".toList := by
  refine ⟨?_, ?_, ?_⟩
  · intro manifest
    cases h : manifest.find? isModuleLine with
    | none =>
        simp only [loadModulePath, h]
        rw [List.find?_eq_none] at h
        refine iff_of_true trivial ?_
        intro l hl
        simpa using h l hl
    | some l =>
        simp only [loadModulePath, h]
        have hl := List.find?_some h
        have hmem := List.mem_of_find?_eq_some h
        refine iff_of_false (by simp) ?_
        intro hall
        rw [hall l hmem] at hl
        cases hl
  · intro pre l post hpre hl
    have hf := find?_append_cons_of_forall_neg isModuleLine pre l post hpre hl
    simp [loadModulePath, hf]
  · rfl

theorem claim8_witness :
    loadModulePath ["go 1.21".toList, "module x".toList] =
      Except.ok (trimChars ("module x".toList.drop 6)) :=
  claim8_loadModulePath.2.1 ["go 1.21".toList] "module x".toList []
    (by decide) (by decide)

/-- C9: serializing a result sequence to its JSON form and parsing it back
yields the same sequence, record for record and in order. -/
theorem claim9_json_roundtrip (rs : List Implementation) :
    resultsFromJson (resultsToJson rs) = some rs := by
  induction rs with
  | nil => rfl
  | cons i rest ih =>
      simp only [resultsToJson, resultsFromJson] at ih ⊢
      rw [List.map_cons, List.mapM_cons, implFromJson_implToJson, ih]
      rfl

/-- C10: the spec parser accepts exactly the strings made of a file part and
a name part around a single colon with both parts non-blank after trimming,
returning the trimmed parts; every other input — no colon, several colons,
or a blank part — yields the error triple with empty outputs. -/
theorem claim10_parseInterfaceSpec :
    (∀ a b : List Char, ':' ∉ a → ':' ∉ b →
      parseInterfaceSpec (a ++ ':' :: b) =
        if (trimChars a).isEmpty || (trimChars b).isEmpty then ([], [], false)
        else (trimChars a, trimChars b, true)) ∧
    (∀ s : List Char,
      (∀ a b : List Char, ':' ∉ a → ':' ∉ b → s ≠ a ++ ':' :: b) →
      parseInterfaceSpec s = ([], [], false)) := by
  constructor
  · intro a b ha hb
    have hsp : splitOnColon (a ++ ':' :: b) = [a, b] :=
      (splitOnColon_eq_pair (a ++ ':' :: b) a b).mpr ⟨rfl, ha, hb⟩
    simp [parseInterfaceSpec, hsp]
  · intro s hno
    cases hsp : splitOnColon s with
    | nil => exact absurd hsp (splitOnColon_ne_nil s)
    | cons x xs =>
        cases xs with
        | nil => simp [parseInterfaceSpec, hsp]
        | cons y ys =>
            cases ys with
            | nil =>
                obtain ⟨hs, hx, hy⟩ := (splitOnColon_eq_pair s x y).mp hsp
                exact absurd hs (hno x y hx hy)
            | cons z zs => simp [parseInterfaceSpec, hsp]

theorem claim10_witness :
    parseInterfaceSpec (" a.go".toList ++ ':' :: " Server ".toList) =
      (trimChars " a.go".toList, trimChars " Server ".toList, true) := by
  rw [claim10_parseInterfaceSpec.1 " a.go".toList " Server ".toList
    (by decide) (by decide), if_neg (by decide)]

end GoFindImpl
